import Mathlib

/-!
# Verification of the TeXnous parser framework

Shallow embedding of the core of the `Parser` repository:

* `@texnous/tree` (generic tree with cached `subtreeSize`, appended at the
  tail of `src/lib/@texnous/latex-tree/sources/lib/LatexTree.js`),
* `@texnous/syntax-tree` (`SyntaxTree.Token` with `sourceLength` /
  `sourceShift` / derived `sourceOffset`),
* `@texnous/parser` (`Parser`, `Parser.Context` with its `sourceOffset`
  setter, state stack, `_parseToken` engine),
* `@texnous/latex` (`Latex.State` mode flags, directives),
* `@texnous/latex-parser` (`LatexParser` dispatch: comments, space tokens,
  symbol fallback, `_parsePatterns` backtracking, `updateState`).

JavaScript numbers are modelled as `Int` (or `Nat` where the source value is
a string offset that is provably non-negative), strings as `List Char`,
thrown exceptions as `Except JsErr`, and `null`/`undefined` as `Option`.
Mutable objects are modelled by explicit state passing; object identity of
tree nodes is modelled by addressing nodes with their path (list of child
indices) from the root, which is faithful because every node object occurs
in at most one parent's child list at one position.
-/

/-- JavaScript exceptions thrown by the modelled code. -/
inductive JsErr where
  | typeError (msg : String)
  | referenceError (msg : String)
  deriving DecidableEq, Repr

/-! ## `Latex.js`: modes, directives, operations, lexemes, `Latex.State` -/

/-- `Latex.Mode`: the six mode flags (LatexTree.js source: Latex.js lines 83-90). -/
inductive Mode where
  | list | math | picture | table | text | vertical
  deriving DecidableEq, Repr

/-- `Latex.Directive` (Latex.js lines 185-188). -/
inductive Directive where
  | BEGIN | END
  deriving DecidableEq, Repr

/-- An operation operand: the special `Latex.GROUP` marker or a mode name. -/
inductive Operand where
  | group
  | mode (m : Mode)
  deriving DecidableEq, Repr

/-- `Latex.Operation`: a directive together with an operand (Latex.js lines 218-257). -/
structure Operation where
  directive : Directive
  operand : Operand
  deriving DecidableEq, Repr

/-- `Latex.Lexeme` (Latex.js lines 37-74); only the constructors the verified
claims touch are spelled out, the rest are collapsed into `other`. -/
inductive Lexeme where
  | SPACE
  | PARAGRAPH_SEPARATOR
  | other (name : String)
  deriving DecidableEq, Repr

/-- `Latex.State`: the `_modeStates` record, one boolean per mode
(Latex.js lines 99-175).  The constructor `Latex.State()` starts with
`TEXT = true` and every other mode `false`. -/
structure LState where
  list : Bool
  math : Bool
  picture : Bool
  table : Bool
  text : Bool
  vertical : Bool
  deriving DecidableEq, Repr

/-- The initial `Latex.State` (Latex.js lines 107-113). -/
def LState.initial : LState :=
  { list := false, math := false, picture := false, table := false,
    text := true, vertical := false }

/-- Assignment `this._modeStates[mode] = value` for a single mode. -/
def LState.setMode (st : LState) (m : Mode) (b : Bool) : LState :=
  match m with
  | .list => { st with list := b }
  | .math => { st with math := b }
  | .picture => { st with picture := b }
  | .table => { st with table := b }
  | .text => { st with text := b }
  | .vertical => { st with vertical := b }

/-- `Latex.State.update(modeStates)` (Latex.js lines 134-144): store every
given mode state.  The JavaScript object of pending mode states is modelled
as an association list in insertion order. -/
def LState.update (st : LState) (modeStates : List (Mode × Bool)) : LState :=
  modeStates.foldl (fun s mb => s.setMode mb.1 mb.2) st

/-! ## Syntax-tree tokens

`SyntaxTree.Token` extends `Tree.Node` with `sourceLength` (`null` until
fixed) and `sourceShift` (default `0`).  The subtree-size bookkeeping of
`Tree.Node` is modelled separately (`RawNode` below); here we model the
fields the parser engine and the `sourceOffset` getter read and write. -/

/-- Discriminates the concrete `LatexTree` token classes the claims need. -/
inductive TokKind where
  | plain
  | space (lineBreakCount : Nat)
  | symbol (pattern : List Char)
  | command (name : List Char)
  deriving DecidableEq, Repr

/-- A syntax-tree token: kind, `_sourceLength` (`none` = JS `null`),
`_sourceShift` (prototype default `0`), and the ordered child list. -/
inductive Token where
  | mk (kind : TokKind) (sourceLength : Option Int) (sourceShift : Int)
      (children : List Token)

def Token.kind : Token → TokKind
  | .mk k _ _ _ => k

def Token.sourceLength : Token → Option Int
  | .mk _ l _ _ => l

def Token.sourceShift : Token → Int
  | .mk _ _ s _ => s

def Token.children : Token → List Token
  | .mk _ _ _ c => c

/-- `SpaceToken#lexeme` (LatexTree.js lines 716-718):
`lineBreakCount <= 1 ? Latex.Lexeme.SPACE : Latex.Lexeme.PARAGRAPH_SEPARATOR`. -/
def spaceTokenLexeme (lineBreakCount : Nat) : Lexeme :=
  if lineBreakCount ≤ 1 then Lexeme.SPACE else Lexeme.PARAGRAPH_SEPARATOR

/-- `new LatexTree.SpaceToken({ lineBreakCount: n })` (LatexTree.js lines
695-708): a fresh token, no children, `sourceLength` still `null`,
`sourceShift` at its prototype default `0`.  A zero count is falsy in the
constructor's guard and leaves the prototype default `0`, which is the same
value, so the stored count is `n` in every case. -/
def mkSpaceToken (n : Nat) : Token :=
  Token.mk (TokKind.space n) none 0 []

/-- `new LatexTree.SymbolToken({ pattern: sourceCharacter })` for the
unrecognized-symbol fallback (LatexParser.js line 114). -/
def mkFallbackSymbolToken (sourceCharacter : Option Char) : Token :=
  Token.mk (TokKind.symbol sourceCharacter.toList) none 0 []

/-- `Tree.Node#insertChildSubtree(token)` with the default child index, as
used by the parser engine to attach a finished token at the end of the
current token's child list (Parser.js line 124).  The subtree-size effect of
the same method is modelled on `RawNode`. -/
def Token.insertChildSubtree (parent tok : Token) : Token :=
  match parent with
  | .mk k l s c => Token.mk k l s (c ++ [tok])

/-! ## `Parser.Context` / `LatexParser.Context`

One record carries the base-class fields (Parser.js lines 160-191) and the
`LatexParser.Context` extension fields (LatexParser.js lines 474-505).
`_stateStack` is modelled with the most recently pushed state first. -/

structure Ctx where
  source : List Char
  sourceOffset : Nat
  sourceCuttingOffset : Nat
  state : LState
  stateStack : List LState
  token : Option Token
  stopLabel : Option (List Char)
  latexLexeme : Option Lexeme
  latexCommandName : Option (List Char)
  latexParameter : Option Nat
  latexEnvironmentName : Option (List Char)
  comments : List (List Char)

/-- A fresh context for a source string (`new LatexParser.Context(source)`). -/
def Ctx.init (source : List Char) : Ctx :=
  { source := source, sourceOffset := 0, sourceCuttingOffset := 0,
    state := LState.initial, stateStack := [], token := none,
    stopLabel := none, latexLexeme := none, latexCommandName := none,
    latexParameter := none, latexEnvironmentName := none, comments := [] }

/-- `LatexParser.Context#copy` into a target (Parser.js lines 200-215 plus
LatexParser.js lines 515-529): every field is copied; the state is
deep-copied and the stacks and comment lists are sliced, which on pure
values is the value itself. -/
def Ctx.copy (c : Ctx) : Ctx :=
  { source := c.source, sourceOffset := c.sourceOffset,
    sourceCuttingOffset := c.sourceCuttingOffset, state := c.state,
    stateStack := c.stateStack, token := c.token, stopLabel := c.stopLabel,
    latexLexeme := c.latexLexeme, latexCommandName := c.latexCommandName,
    latexParameter := c.latexParameter,
    latexEnvironmentName := c.latexEnvironmentName, comments := c.comments }

theorem Ctx.copy_eq (c : Ctx) : c.copy = c := rfl

/-- The `sourceOffset` setter (Parser.js lines 243-248).  In order:
`if (!parseInt(offset, 10)) throw TypeError` — for an integer argument
`parseInt` returns the argument itself, so this rejects exactly `0`;
`if (offset < this._sourceOffset) throw TypeError`;
`if (offset > this._source.length) throw TypeError`. -/
def Ctx.setSourceOffset (c : Ctx) (offset : Int) : Except JsErr Ctx :=
  if offset = 0 then
    Except.error (JsErr.typeError "\"offset\" isn't an integer")
  else if offset < (c.sourceOffset : Int) then
    Except.error (JsErr.typeError "\"offset\" is less than the current one")
  else if offset > (c.source.length : Int) then
    Except.error (JsErr.typeError "\"offset\" is greater than the source length")
  else
    Except.ok { c with sourceOffset := offset.toNat }

/-- `markSourceCuttingOffset()` (Parser.js lines 266-268). -/
def Ctx.markSourceCuttingOffset (c : Ctx) : Ctx :=
  { c with sourceCuttingOffset := c.sourceOffset }

/-- `isAtSourceEnd()` (Parser.js lines 286-288). -/
def Ctx.isAtSourceEnd (c : Ctx) : Bool :=
  c.source.length ≤ c.sourceOffset

/-- `sourceCharacter` (Parser.js lines 276-278): `this._source[offset]`,
`undefined` (`none`) when the offset is past the end. -/
def Ctx.sourceCharacter (c : Ctx) : Option Char :=
  c.source.get? c.sourceOffset

/-- `backupState()` (Parser.js lines 377-379): push a copy of the current
state onto the state stack. -/
def Ctx.backupState (c : Ctx) : Ctx :=
  { c with stateStack := c.state :: c.stateStack }

/-- `restoreState()` (Parser.js lines 386-391): `false` and no change when
the stack is empty, otherwise pop the last pushed state and copy it into the
current state. -/
def Ctx.restoreState (c : Ctx) : Bool × Ctx :=
  match c.stateStack with
  | [] => (false, c)
  | s :: rest => (true, { c with state := s, stateStack := rest })

/-! ## `Tree.Node` (tail of LatexTree.js, lines 1013-1391)

A node carries its cached `subtreeSize` and its ordered child list; the
parent back-reference is represented by addressing a node with its path of
child indices from a root.  `delete this.subtreeSize` falls back to the
prototype default `1`, and a node with no own `_childNodes` reads the
prototype default `[]`. -/

inductive RawNode where
  | mk (cached : Int) (children : List RawNode)

def RawNode.cached : RawNode → Int
  | .mk c _ => c

def RawNode.children : RawNode → List RawNode
  | .mk _ ch => ch

/-- Sum of the cached `subtreeSize` values of a list of nodes. -/
def sumCached (l : List RawNode) : Int :=
  l.foldr (fun n acc => n.cached + acc) 0

theorem sumCached_nil : sumCached [] = 0 := rfl

theorem sumCached_cons (n : RawNode) (l : List RawNode) :
    sumCached (n :: l) = n.cached + sumCached l := rfl

theorem sumCached_append (l₁ l₂ : List RawNode) :
    sumCached (l₁ ++ l₂) = sumCached l₁ + sumCached l₂ := by
  induction l₁ with
  | nil => simp [sumCached_nil, sumCached_cons]
  | cons n l ih => simp [sumCached_cons, ih]; ring

mutual
/-- The documented invariant of the cached sizes: for every node,
`subtreeSize == 1 + Σ subtreeSize(child)` (spec §3, LatexTree.js line 1006). -/
def wellSized : RawNode → Bool
  | .mk c ch => (c == 1 + sumCached ch) && wellSizedList ch

def wellSizedList : List RawNode → Bool
  | [] => true
  | n :: l => wellSized n && wellSizedList l
end

theorem wellSized_def (c : Int) (ch : List RawNode) :
    wellSized (.mk c ch) = ((c == 1 + sumCached ch) && wellSizedList ch) := by
  rw [wellSized]

theorem wellSizedList_append (l₁ l₂ : List RawNode) :
    wellSizedList (l₁ ++ l₂) = (wellSizedList l₁ && wellSizedList l₂) := by
  induction l₁ with
  | nil => simp [wellSizedList]
  | cons n l ih => simp [wellSizedList, ih, Bool.and_assoc]

/-- Node lookup by path of child indices. -/
def nodeAt : RawNode → List Nat → Option RawNode
  | t, [] => some t
  | t, i :: p => (t.children.get? i).bind (fun c => nodeAt c p)

/-- The cached `subtreeSize` of the node at a path. -/
def cachedAt (t : RawNode) (p : List Nat) : Option Int :=
  (nodeAt t p).map RawNode.cached

/-! ### The four structural mutations

Each local operation acts on the target node (the receiver `this`) and
returns the rewritten node together with the delta its ancestor loop adds to
every ancestor's `subtreeSize` (`+1`, `+nodeSubtreeSize`, `-1`,
`-nodeSubtreeSize` in the four methods).  `applyAtPath` then performs the
ancestor updates: on the way back up from the target each node on the path
gets `subtreeSize + delta` exactly as the
`for (parentNode = this.parentNode; ...)` loops do. -/

/-- `Array.prototype.splice(start, deleteCount, item)` clamps `start` to the
array length; the removed elements and the new array. -/
def spliceStart (len i : Nat) : Nat := min i len

/-- `Tree.Node#insertChildNode(node, childIndex, childNodesToCover)`
(LatexTree.js lines 1098-1154) at the receiver: fails (throws) when the new
node already has child nodes; replaces `cover` children at `index` by the
node, re-parents the covered children under it and recomputes its cached
size as `1 + Σ` when any were covered; the receiver gets `subtreeSize + 1`. -/
def insertChildNodeLocal (u : RawNode) (index cover : Option Nat)
    (t : RawNode) : Option (RawNode × Int) :=
  if ¬ u.children.isEmpty then none
  else
    let ch := t.children
    let i := spliceStart ch.length (index.getD ch.length)
    let k := cover.getD 0
    let removed := (ch.drop i).take k
    let u' := if ¬ removed.isEmpty then RawNode.mk (1 + sumCached removed) removed else u
    some (RawNode.mk (t.cached + 1) (ch.take i ++ [u'] ++ ch.drop (i + k)), 1)

/-- `Tree.Node#insertChildSubtree(node, childIndex)` (LatexTree.js lines
1166-1200) at the receiver: insert the whole subtree, receiver gets
`subtreeSize + nodeSubtreeSize`. -/
def insertChildSubtreeLocal (u : RawNode) (index : Option Nat)
    (t : RawNode) : Option (RawNode × Int) :=
  let ch := t.children
  let i := spliceStart ch.length (index.getD ch.length)
  some (RawNode.mk (t.cached + u.cached) (ch.take i ++ [u] ++ ch.drop i), u.cached)

/-- `Tree.Node#removeChildNode(index)` (LatexTree.js lines 1210-1239) at the
receiver: replace the child with its own children (promotion); the receiver
gets `subtreeSize - 1`, or falls back to the prototype default `1` when it
ends up with no children (`delete this.subtreeSize`). -/
def removeChildNodeLocal (index : Nat) (t : RawNode) : Option (RawNode × Int) :=
  match t.children.get? index with
  | none => none
  | some c =>
    let newChildren := t.children.take index ++ c.children ++ t.children.drop (index + 1)
    some (RawNode.mk (if newChildren.isEmpty then 1 else t.cached - 1) newChildren, -1)

/-- `Tree.Node#removeChildSubtree(index)` (LatexTree.js lines 1249-1270) at
the receiver: remove the child with its whole subtree; the receiver gets
`subtreeSize - nodeSubtreeSize`, or the prototype default `1` when it ends
up with no children. -/
def removeChildSubtreeLocal (index : Nat) (t : RawNode) : Option (RawNode × Int) :=
  match t.children.get? index with
  | none => none
  | some c =>
    let newChildren := t.children.take index ++ t.children.drop (index + 1)
    some (RawNode.mk (if newChildren.isEmpty then 1 else t.cached - c.cached) newChildren,
      -c.cached)

/-- One of the four structural mutations together with its arguments. -/
inductive MutOp where
  | insertNode (u : RawNode) (index cover : Option Nat)
  | insertSubtree (u : RawNode) (index : Option Nat)
  | removeNode (index : Nat)
  | removeSubtree (index : Nat)

def MutOp.local_ : MutOp → RawNode → Option (RawNode × Int)
  | .insertNode u index cover => insertChildNodeLocal u index cover
  | .insertSubtree u index => insertChildSubtreeLocal u index
  | .removeNode index => removeChildNodeLocal index
  | .removeSubtree index => removeChildSubtreeLocal index

/-- For the insert operations the precondition that the inserted node (which
must have no parent and no tree) carries consistent cached sizes itself. -/
def MutOp.argWellSized : MutOp → Bool
  | .insertNode u _ _ => wellSized u
  | .insertSubtree u _ => wellSized u
  | .removeNode _ => true
  | .removeSubtree _ => true

/-- Run a local mutation at the node addressed by `p` and apply the
`subtreeSize` delta to every ancestor on the way back up, exactly as the
ancestor loops of the four methods do. -/
def applyAtPath (op : RawNode → Option (RawNode × Int)) :
    RawNode → List Nat → Option (RawNode × Int)
  | t, [] => op t
  | t, j :: p =>
    (t.children.get? j).bind (fun child =>
      (applyAtPath op child p).map (fun cd =>
        (RawNode.mk (t.cached + cd.2) (t.children.set j cd.1), cd.2)))

/-- A structural mutation of the tree `t` at the node addressed by `p`. -/
def runMutOp (m : MutOp) (t : RawNode) (p : List Nat) : Option (RawNode × Int) :=
  applyAtPath m.local_ t p

/-! ### Helper lemmas for the size invariant -/

theorem take_get_drop {α : Type} (l : List α) (i : Nat) (c : α)
    (h : l.get? i = some c) : l.take i ++ c :: l.drop (i + 1) = l := by
  induction l generalizing i with
  | nil => simp at h
  | cons a l ih =>
    cases i with
    | zero => simp_all
    | succ j =>
      simp only [List.get?] at h
      simp [ih j h]

theorem wellSizedList_get? {l : List RawNode} {j : Nat} {c : RawNode}
    (h : l.get? j = some c) (hl : wellSizedList l = true) : wellSized c = true := by
  induction l generalizing j with
  | nil => simp at h
  | cons a l ih =>
    simp only [wellSizedList, Bool.and_eq_true] at hl
    cases j with
    | zero => simp at h; simpa [← h] using hl.1
    | succ j => exact ih (by simpa using h) hl.2

theorem sumCached_set {l : List RawNode} {j : Nat} {c : RawNode} (c' : RawNode)
    (h : l.get? j = some c) :
    sumCached (l.set j c') = sumCached l - c.cached + c'.cached := by
  induction l generalizing j with
  | nil => simp at h
  | cons a l ih =>
    cases j with
    | zero =>
      simp only [List.get?] at h
      simp [List.set, sumCached_cons, Option.some.injEq] at h ⊢
      rw [← h]; ring
    | succ j =>
      simp only [List.get?] at h
      simp [List.set, sumCached_cons, ih h]; ring

theorem wellSizedList_set {l : List RawNode} {j : Nat} {c : RawNode} {c' : RawNode}
    (h : l.get? j = some c) (hl : wellSizedList l = true)
    (hc' : wellSized c' = true) : wellSizedList (l.set j c') = true := by
  induction l generalizing j with
  | nil => simp at h
  | cons a l ih =>
    simp only [wellSizedList, Bool.and_eq_true] at hl
    cases j with
    | zero => simp [List.set, wellSizedList, hc', hl.2]
    | succ j =>
      simp only [List.get?] at h
      simp [List.set, wellSizedList, hl.1, ih h hl.2]

theorem get?_set_self {α : Type} {l : List α} {j : Nat} {c : α} (c' : α)
    (h : l.get? j = some c) : (l.set j c').get? j = some c' := by
  induction l generalizing j with
  | nil => simp at h
  | cons a l ih =>
    cases j with
    | zero => simp [List.set]
    | succ j =>
      simp only [List.get?] at h
      simpa using ih h

theorem wellSizedList_take {l : List RawNode} (n : Nat)
    (hl : wellSizedList l = true) : wellSizedList (l.take n) = true := by
  have h := hl
  rw [← List.take_append_drop n l, wellSizedList_append, Bool.and_eq_true] at h
  exact h.1

theorem wellSizedList_drop {l : List RawNode} (n : Nat)
    (hl : wellSizedList l = true) : wellSizedList (l.drop n) = true := by
  have h := hl
  rw [← List.take_append_drop n l, wellSizedList_append, Bool.and_eq_true] at h
  exact h.2

theorem sumCached_take_drop (l : List RawNode) (i k : Nat) :
    sumCached l
      = sumCached (l.take i) + sumCached ((l.drop i).take k) + sumCached (l.drop (i + k)) := by
  have h2 : (l.drop i).drop k = l.drop (i + k) := by
    rw [List.drop_drop, Nat.add_comm]
  calc sumCached l
      = sumCached (l.take i ++ ((l.drop i).take k ++ (l.drop i).drop k)) := by
        rw [List.take_append_drop, List.take_append_drop]
    _ = sumCached (l.take i) + sumCached ((l.drop i).take k) + sumCached (l.drop (i + k)) := by
        rw [sumCached_append, sumCached_append, h2]; ring


theorem RawNode.cached_mk (c : Int) (ch : List RawNode) :
    (RawNode.mk c ch).cached = c := rfl

theorem RawNode.children_mk (c : Int) (ch : List RawNode) :
    (RawNode.mk c ch).children = ch := rfl

theorem wellSized_iff {c : Int} {ch : List RawNode} :
    wellSized (.mk c ch) = true ↔ (c = 1 + sumCached ch ∧ wellSizedList ch = true) := by
  rw [wellSized_def]; simp

theorem insertChildNodeLocal_spec {u : RawNode} {index cover : Option Nat}
    {t t' : RawNode} {δ : Int} (hu : wellSized u = true) (ht : wellSized t = true)
    (h : insertChildNodeLocal u index cover t = some (t', δ)) :
    wellSized t' = true ∧ t'.cached = t.cached + δ := by
  obtain ⟨tc, tch⟩ := t
  by_cases hue : u.children.isEmpty
  · simp only [insertChildNodeLocal, hue, not_true_eq_false, if_false,
      Option.some.injEq, Prod.mk.injEq, RawNode.cached_mk, RawNode.children_mk] at h
    obtain ⟨h1, h2⟩ := h
    subst h1; subst h2
    obtain ⟨htc, htl⟩ := wellSized_iff.mp ht
    set i := spliceStart tch.length (index.getD tch.length) with hi
    set k := cover.getD 0 with hk
    set removed := (tch.drop i).take k with hrm
    set u' := if ¬ removed.isEmpty then RawNode.mk (1 + sumCached removed) removed else u
      with hu'
    have hu'c : u'.cached = 1 + sumCached removed := by
      rw [hu']
      by_cases hre : removed.isEmpty
      · have hrnil : removed = [] := List.isEmpty_iff.mp hre
        have hunil : u.children = [] := List.isEmpty_iff.mp hue
        obtain ⟨uc, uch⟩ := u
        rw [RawNode.children_mk] at hunil
        subst hunil
        obtain ⟨huc, -⟩ := wellSized_iff.mp hu
        simp [hre, huc, hrnil, sumCached_nil, RawNode.cached_mk]
      · rw [if_pos (by simp [hre]), RawNode.cached_mk]
    have hu'w : wellSized u' = true := by
      rw [hu']
      by_cases hre : removed.isEmpty
      · simpa [hre] using hu
      · rw [if_pos (by simp [hre]), wellSized_iff]
        exact ⟨rfl, wellSizedList_take _ (wellSizedList_drop _ htl)⟩
    have hsum : sumCached (tch.take i ++ [u'] ++ tch.drop (i + k))
        = sumCached tch + 1 := by
      rw [sumCached_append, sumCached_append, sumCached_cons, sumCached_nil,
        sumCached_take_drop tch i k, hu'c]
      ring
    refine ⟨?_, by rw [RawNode.cached_mk, RawNode.cached_mk]⟩
    rw [wellSized_iff]
    constructor
    · rw [hsum, htc]; ring
    · rw [wellSizedList_append, wellSizedList_append, Bool.and_eq_true, Bool.and_eq_true]
      exact ⟨⟨wellSizedList_take _ htl, by simp [wellSizedList, hu'w]⟩,
        wellSizedList_drop _ htl⟩
  · simp [insertChildNodeLocal, hue] at h

theorem insertChildSubtreeLocal_spec {u : RawNode} {index : Option Nat}
    {t t' : RawNode} {δ : Int} (hu : wellSized u = true) (ht : wellSized t = true)
    (h : insertChildSubtreeLocal u index t = some (t', δ)) :
    wellSized t' = true ∧ t'.cached = t.cached + δ := by
  obtain ⟨tc, tch⟩ := t
  simp only [insertChildSubtreeLocal, Option.some.injEq, Prod.mk.injEq,
    RawNode.cached_mk, RawNode.children_mk] at h
  obtain ⟨h1, h2⟩ := h
  subst h1; subst h2
  obtain ⟨htc, htl⟩ := wellSized_iff.mp ht
  set i := spliceStart tch.length (index.getD tch.length) with hi
  have hsum : sumCached (tch.take i ++ [u] ++ tch.drop i)
      = sumCached tch + u.cached := by
    have hdecomp := List.take_append_drop i tch
    calc sumCached (tch.take i ++ [u] ++ tch.drop i)
        = sumCached (tch.take i) + u.cached + sumCached (tch.drop i) := by
          rw [sumCached_append, sumCached_append, sumCached_cons, sumCached_nil]; ring
      _ = sumCached tch + u.cached := by
          conv_rhs => rw [← hdecomp]
          rw [sumCached_append]; ring
  refine ⟨?_, by rw [RawNode.cached_mk, RawNode.cached_mk]⟩
  rw [wellSized_iff]
  constructor
  · rw [hsum, htc]; ring
  · rw [wellSizedList_append, wellSizedList_append, Bool.and_eq_true, Bool.and_eq_true]
    exact ⟨⟨wellSizedList_take _ htl, by simp [wellSizedList, hu]⟩,
      wellSizedList_drop _ htl⟩

theorem removeChildNodeLocal_spec {index : Nat} {t t' : RawNode} {δ : Int}
    (ht : wellSized t = true)
    (h : removeChildNodeLocal index t = some (t', δ)) :
    wellSized t' = true ∧ t'.cached = t.cached + δ := by
  obtain ⟨tc, tch⟩ := t
  rcases hget : tch.get? index with _ | c
  · rw [removeChildNodeLocal, RawNode.children_mk, hget] at h; simp at h
  rw [removeChildNodeLocal, RawNode.children_mk, hget] at h
  simp only [Option.some.injEq, Prod.mk.injEq] at h
  obtain ⟨h1, h2⟩ := h
  subst h1; subst h2
  obtain ⟨htc, htl⟩ := wellSized_iff.mp ht
  have hc := wellSizedList_get? hget htl
  obtain ⟨cc, cch⟩ := c
  obtain ⟨hcc, hcl⟩ := wellSized_iff.mp hc
  have hdecomp : tch.take index ++ RawNode.mk cc cch :: tch.drop (index + 1) = tch :=
    take_get_drop _ _ _ hget
  simp only [RawNode.cached_mk, RawNode.children_mk]
  set newChildren := tch.take index ++ cch ++ tch.drop (index + 1) with hnc
  have hsum : sumCached newChildren = sumCached tch - 1 := by
    have hold : sumCached tch
        = sumCached (tch.take index) + cc + sumCached (tch.drop (index + 1)) := by
      conv_lhs => rw [← hdecomp]
      rw [sumCached_append, sumCached_cons, RawNode.cached_mk]; ring
    rw [hnc, sumCached_append, sumCached_append, hold, hcc]; ring
  have hwl : wellSizedList newChildren = true := by
    rw [hnc, wellSizedList_append, wellSizedList_append, Bool.and_eq_true,
      Bool.and_eq_true]
    exact ⟨⟨wellSizedList_take _ htl, hcl⟩, wellSizedList_drop _ htl⟩
  by_cases hne : newChildren.isEmpty
  · have hnil : newChildren = [] := List.isEmpty_iff.mp hne
    have h0 : sumCached newChildren = 0 := by rw [hnil, sumCached_nil]
    constructor
    · rw [if_pos hne, wellSized_iff, hnil]
      exact ⟨by rw [sumCached_nil]; ring, by rw [wellSizedList]⟩
    · rw [if_pos hne]; omega
  · constructor
    · rw [if_neg hne, wellSized_iff]
      exact ⟨by omega, hwl⟩
    · rw [if_neg hne]; ring

theorem removeChildSubtreeLocal_spec {index : Nat} {t t' : RawNode} {δ : Int}
    (ht : wellSized t = true)
    (h : removeChildSubtreeLocal index t = some (t', δ)) :
    wellSized t' = true ∧ t'.cached = t.cached + δ := by
  obtain ⟨tc, tch⟩ := t
  rcases hget : tch.get? index with _ | c
  · rw [removeChildSubtreeLocal, RawNode.children_mk, hget] at h; simp at h
  rw [removeChildSubtreeLocal, RawNode.children_mk, hget] at h
  simp only [Option.some.injEq, Prod.mk.injEq] at h
  obtain ⟨h1, h2⟩ := h
  subst h1; subst h2
  obtain ⟨htc, htl⟩ := wellSized_iff.mp ht
  have hc := wellSizedList_get? hget htl
  obtain ⟨cc, cch⟩ := c
  obtain ⟨hcc, hcl⟩ := wellSized_iff.mp hc
  have hdecomp : tch.take index ++ RawNode.mk cc cch :: tch.drop (index + 1) = tch :=
    take_get_drop _ _ _ hget
  simp only [RawNode.cached_mk, RawNode.children_mk]
  set newChildren := tch.take index ++ tch.drop (index + 1) with hnc
  have hsum : sumCached newChildren = sumCached tch - cc := by
    have hold : sumCached tch
        = sumCached (tch.take index) + cc + sumCached (tch.drop (index + 1)) := by
      conv_lhs => rw [← hdecomp]
      rw [sumCached_append, sumCached_cons, RawNode.cached_mk]; ring
    rw [hnc, sumCached_append, hold]; ring
  have hwl : wellSizedList newChildren = true := by
    rw [hnc, wellSizedList_append, Bool.and_eq_true]
    exact ⟨wellSizedList_take _ htl, wellSizedList_drop _ htl⟩
  by_cases hne : newChildren.isEmpty
  · have hnil : newChildren = [] := List.isEmpty_iff.mp hne
    have h0 : sumCached newChildren = 0 := by rw [hnil, sumCached_nil]
    constructor
    · rw [if_pos hne, wellSized_iff, hnil]
      exact ⟨by rw [sumCached_nil]; ring, by rw [wellSizedList]⟩
    · rw [if_pos hne]; omega
  · constructor
    · rw [if_neg hne, wellSized_iff]
      exact ⟨by omega, hwl⟩
    · rw [if_neg hne]; ring

theorem localOp_spec (m : MutOp) {t t' : RawNode} {δ : Int}
    (hm : m.argWellSized = true) (ht : wellSized t = true)
    (h : m.local_ t = some (t', δ)) :
    wellSized t' = true ∧ t'.cached = t.cached + δ := by
  cases m with
  | insertNode u index cover =>
    exact insertChildNodeLocal_spec (by simpa [MutOp.argWellSized] using hm) ht h
  | insertSubtree u index =>
    exact insertChildSubtreeLocal_spec (by simpa [MutOp.argWellSized] using hm) ht h
  | removeNode index => exact removeChildNodeLocal_spec ht h
  | removeSubtree index => exact removeChildSubtreeLocal_spec ht h

theorem applyAtPath_spec {op : RawNode → Option (RawNode × Int)}
    (hop : ∀ {t t' : RawNode} {δ : Int}, wellSized t = true → op t = some (t', δ) →
      wellSized t' = true ∧ t'.cached = t.cached + δ) :
    ∀ (p : List Nat) (t t' : RawNode) (δ : Int), wellSized t = true →
      applyAtPath op t p = some (t', δ) →
      wellSized t' = true ∧
        ∀ q r, p = q ++ r → cachedAt t' q = (cachedAt t q).map (· + δ) := by
  intro p
  induction p with
  | nil =>
    intro t t' δ ht h
    rw [applyAtPath] at h
    obtain ⟨hw, hcach⟩ := hop ht h
    refine ⟨hw, ?_⟩
    intro q r hqr
    obtain ⟨rfl, rfl⟩ := List.append_eq_nil.mp hqr.symm
    simp [cachedAt, nodeAt, hcach]
  | cons j p ih =>
    intro t t' δ ht h
    obtain ⟨tc, tch⟩ := t
    rw [applyAtPath, RawNode.children_mk] at h
    rcases hget : tch.get? j with _ | child
    · rw [hget] at h; simp at h
    rw [hget, Option.some_bind] at h
    rcases hrec : applyAtPath op child p with _ | cd
    · rw [hrec] at h; simp at h
    obtain ⟨child', δ'⟩ := cd
    rw [hrec, Option.map_some'] at h
    simp only [Option.some.injEq, Prod.mk.injEq, RawNode.cached_mk] at h
    obtain ⟨h1, h2⟩ := h
    subst h2; subst h1
    obtain ⟨htc, htl⟩ := wellSized_iff.mp ht
    have hchild : wellSized child = true := wellSizedList_get? hget htl
    obtain ⟨hw', hpre⟩ := ih child child' δ' hchild hrec
    have hcach' : child'.cached = child.cached + δ' := by
      simpa [cachedAt, nodeAt] using hpre [] p rfl
    refine ⟨?_, ?_⟩
    · rw [wellSized_iff]
      constructor
      · rw [sumCached_set child' hget, hcach', htc]; ring
      · exact wellSizedList_set hget htl hw'
    · intro q r hqr
      cases q with
      | nil =>
        simp [cachedAt, nodeAt, RawNode.cached_mk]
      | cons j₀ q' =>
        rw [List.cons_append] at hqr
        injection hqr with hj hq'
        subst hj
        have hset : ((tch.set j child').get? j) = some child' := get?_set_self child' hget
        simp only [cachedAt, nodeAt, RawNode.children_mk, hset, hget, Option.some_bind]
        simpa [cachedAt] using hpre q' r hq'

/-- C1 auxiliary: `runMutOp` preserves the size invariant and changes the
cached size of the mutated node and of each of its ancestors by the delta. -/
theorem runMutOp_spec (m : MutOp) {t t' : RawNode} {p : List Nat} {δ : Int}
    (hm : m.argWellSized = true) (ht : wellSized t = true)
    (h : runMutOp m t p = some (t', δ)) :
    wellSized t' = true ∧
      ∀ q r, p = q ++ r → cachedAt t' q = (cachedAt t q).map (· + δ) := by
  exact applyAtPath_spec (fun hts hop => localOp_spec m hm hts hop) p t t' δ ht h

/-! ### `isKeyRoot`, `childNode`, `childIndex`

Object identity of nodes is modelled by the address (path of child indices)
of a node in its tree: distinct valid addresses are distinct objects, and
`this.parentNode._childNodes[0]` is the node at address
`p.dropLast ++ [0]` when `this` sits at the non-root address `p`. -/

/-- `Tree.Node#isKeyRoot` (LatexTree.js line 1278):
`(this.parentNode === null) || (this !== this.parentNode._childNodes[0])`,
for the node at address `p`. -/
def isKeyRoot (p : List Nat) : Bool :=
  decide (p = []) || decide (p ≠ p.dropLast ++ [0])

/-- The argument of `childNode` / `childIndex`: a child index or a node
(represented by its address in the same tree). -/
inductive NodeArg where
  | num (i : Nat)
  | node (q : List Nat)

/-- `Tree.Node#childNode(node)` (LatexTree.js lines 1062-1068) for the
receiver `t` at address `p`.  The number branch is
`this._childNodes[node] || null`.  The node branch evaluates
`node instanceof Node`; the identifier `Node` is not bound anywhere in the
tree module (the sibling method `childIndex` uses `Tree.Node` instead), so
under Node.js this branch always throws
`ReferenceError: Node is not defined`. -/
def childNode (t : RawNode) (p : List Nat) (arg : NodeArg) :
    Except JsErr (Option RawNode) :=
  match arg with
  | .num i => .ok (t.children.get? i)
  | .node _ => .error (.referenceError "Node is not defined")

/-- `Tree.Node#childIndex(node)` (LatexTree.js lines 1078-1084) for the
receiver at address `p`: a number is returned back when a child exists
there; a node argument yields `this._childNodes.indexOf(node)` when
`node.parentNode === this` and `null` otherwise.  A node at address `q` has
a parent exactly when `q` is non-empty, the parent is the node at
`q.dropLast`, and its position in the parent's child list is the last entry
of `q`. -/
def childIndex (t : RawNode) (p : List Nat) (arg : NodeArg) :
    Except JsErr (Option Nat) :=
  match arg with
  | .num i => .ok (if (t.children.get? i).isSome then some i else none)
  | .node q => .ok (if q.dropLast = p then q.getLast? else none)

/-- C1: After every structural mutation of a tree (`insertChildNode`,
`insertChildSubtree`, `removeChildNode`, `removeChildSubtree`), every node
of the tree satisfies `subtreeSize = 1 + Σ subtreeSize(child)`, and the
cached size of the mutated node and of every one of its ancestors has
changed by the exact delta of the mutation. -/
theorem claim_C1 (m : MutOp) (t t' : RawNode) (p : List Nat) (δ : Int)
    (hm : m.argWellSized = true) (ht : wellSized t = true)
    (h : runMutOp m t p = some (t', δ)) :
    wellSized t' = true ∧
      ∀ q r, p = q ++ r → cachedAt t' q = (cachedAt t q).map (· + δ) :=
  runMutOp_spec m hm ht h

/-- Witness for C1: inserting a fresh leaf at the root of the tree
`mk 2 [mk 1 []]` yields `mk 3 [mk 1 [], mk 1 []]` with delta `1`. -/
theorem claim_C1_witness :
    wellSized (RawNode.mk 3 [RawNode.mk 1 [], RawNode.mk 1 []]) = true ∧
      ∀ q r, ([] : List Nat) = q ++ r →
        cachedAt (RawNode.mk 3 [RawNode.mk 1 [], RawNode.mk 1 []]) q
          = (cachedAt (RawNode.mk 2 [RawNode.mk 1 []]) q).map (· + 1) :=
  claim_C1 (MutOp.insertNode (RawNode.mk 1 []) none none)
    (RawNode.mk 2 [RawNode.mk 1 []])
    (RawNode.mk 3 [RawNode.mk 1 [], RawNode.mk 1 []]) [] 1
    (by rfl) (by rfl) (by rfl)

/-- C6: For every node of a tree, `isKeyRoot` is true exactly when the node
has no parent (empty address) or it is not the first element of its
parent's child list (last address entry not `0`); it is computed from the
parent link and child position, not stored. -/
theorem claim_C6 (t : RawNode) (p : List Nat) (h : (nodeAt t p).isSome) :
    isKeyRoot p = true ↔ (p = [] ∨ p.getLast? ≠ some 0) := by
  rcases List.eq_nil_or_concat p with rfl | ⟨q, a, rfl⟩
  · simp [isKeyRoot]
  · have h1 : (q ++ [a] = q ++ [0]) ↔ a = 0 := by simp
    have h2 : ((q ++ [a]).getLast? = some 0) ↔ a = 0 := by
      rw [List.getLast?_concat]; simp
    simp only [isKeyRoot, List.dropLast_concat, Bool.or_eq_true, decide_eq_true_eq,
      ne_eq, h1, h2]
    simp

/-- Witness for C6: the second child of a two-child root is a key root. -/
theorem claim_C6_witness :
    isKeyRoot [1] = true ↔ (([1] : List Nat) = [] ∨ ([1] : List Nat).getLast? ≠ some 0) :=
  claim_C6 (RawNode.mk 3 [RawNode.mk 1 [], RawNode.mk 1 []]) [1] (by rfl)

/-- C8: `childIndex` returns `null` on any miss for both argument kinds and
`childNode` returns `null` for an index miss, but `childNode` called with a
node argument — here even with an actual child of the receiver — throws
`ReferenceError: Node is not defined` instead of returning `null`, because
the `node instanceof Node` test on LatexTree.js line 1065 references the
unbound identifier `Node`. -/
theorem claim_C8 :
    childNode (RawNode.mk 3 [RawNode.mk 1 [], RawNode.mk 1 []]) [] (NodeArg.node [0])
        = .error (.referenceError "Node is not defined") ∧
      childNode (RawNode.mk 3 [RawNode.mk 1 [], RawNode.mk 1 []]) [] (NodeArg.num 5)
        = .ok none ∧
      childIndex (RawNode.mk 3 [RawNode.mk 1 [], RawNode.mk 1 []]) [] (NodeArg.num 5)
        = .ok none ∧
      childIndex (RawNode.mk 1 []) [0] (NodeArg.node [1])
        = .ok none :=
  ⟨rfl, rfl, rfl, rfl⟩

/-! ## `SyntaxTree.Token#sourceOffset` (SyntaxTree.js lines 188-204)

The getter walks to the parent, recursively asks for the parent's absolute
offset (returning `null` when that is `null`), then walks the preceding
siblings from index `0` up to `this`, returning `null` as soon as a
sibling's `_sourceLength` is `null` and otherwise accumulating
`_sourceShift + _sourceLength`; finally it adds its own `_sourceShift`.
Tokens are addressed by their path from the root token. -/

def Token.nodeAt : Token → List Nat → Option Token
  | t, [] => some t
  | t, i :: p => (t.children.get? i).bind (fun c => Token.nodeAt c p)

/-- The neighbor loop of the getter: fold over the first `i` siblings,
`null` as soon as one has an undefined `_sourceLength`. -/
def walkPreceding : List Token → Nat → Int → Option Int
  | _, 0, acc => some acc
  | [], _ + 1, _ => none
  | tk :: ts, i + 1, acc =>
    match tk.sourceLength with
    | none => none
    | some len => walkPreceding ts i (acc + tk.sourceShift + len)

/-- `SyntaxTree.Token#sourceOffset` for the token at address `q` of the root
token `r`: a token with no parent (`q = []`) returns its own
`_sourceShift`; otherwise the parent's offset is computed recursively and
the preceding siblings are walked. -/
def tokSourceOffset (r : Token) : List Nat → Option Int
  | [] => some r.sourceShift
  | hd :: tl =>
    match Token.nodeAt r (hd :: tl).dropLast, (hd :: tl).getLast? with
    | some parent, some i =>
      match parent.children.get? i with
      | some _ =>
        match tokSourceOffset r (hd :: tl).dropLast with
        | none => none
        | some a =>
          (walkPreceding parent.children i a).map
            (fun s => s + (parent.children.get? i).elim 0 Token.sourceShift)
      | none => none
    | _, _ => none
  termination_by p => p.length
  decreasing_by
    all_goals simp only [List.length_dropLast, List.length_cons]
    all_goals omega

/-- The spec's closed form of the neighbor loop: defined preceding lengths
summed as `Σ (shift + length)`, `null` when any is undefined. -/
def specPrecedingSum (ts : List Token) (i : Nat) : Option Int :=
  if (ts.take i).all (fun tk => tk.sourceLength.isSome) then
    some (((ts.take i).map (fun tk => tk.sourceShift + tk.sourceLength.getD 0)).sum)
  else none

theorem walkPreceding_eq :
    ∀ (i : Nat) (ts : List Token) (acc : Int), i ≤ ts.length →
      walkPreceding ts i acc = (specPrecedingSum ts i).map (fun s => acc + s) := by
  intro i
  induction i with
  | zero => intro ts acc _; simp [walkPreceding, specPrecedingSum]
  | succ i ih =>
    intro ts acc hle
    cases ts with
    | nil => simp at hle
    | cons tk ts =>
      rcases hl : tk.sourceLength with _ | len
      · simp [walkPreceding, hl, specPrecedingSum]
      · simp only [walkPreceding, hl]
        rw [ih ts (acc + tk.sourceShift + len) (by simpa using hle)]
        simp only [specPrecedingSum, List.take_succ_cons, List.all_cons, hl,
          Option.isSome_some, Bool.true_and, List.map_cons, List.sum_cons,
          Option.getD_some]
        by_cases hrest : (ts.take i).all (fun tk => tk.sourceLength.isSome)
        · simp [hrest]; ring
        · simp [hrest]

/-- C2: For every token, the absolute source offset equals the parent's
absolute source offset plus the sum of `(sourceShift + sourceLength)` over
all preceding siblings plus the token's own `sourceShift`; it is `null`
whenever the parent's offset is `null` or any preceding sibling's
`sourceLength` is `null` (the `bind`/`map` propagation), and for a token
with no parent it equals the token's own `sourceShift`. -/
theorem claim_C2 (r : Token) (p : List Nat) (i : Nat) (parent self : Token)
    (hp : Token.nodeAt r p = some parent)
    (hc : parent.children.get? i = some self) :
    tokSourceOffset r (p ++ [i])
        = (tokSourceOffset r p).bind (fun a =>
            (specPrecedingSum parent.children i).map (fun s => a + s + self.sourceShift)) ∧
      tokSourceOffset r [] = some r.sourceShift := by
  have hlt : i < parent.children.length := by
    by_contra hge
    rw [List.get?_eq_none.mpr (by omega)] at hc
    exact absurd hc (by simp)
  refine ⟨?_, by rw [tokSourceOffset]⟩
  obtain ⟨hd, tl, heq⟩ : ∃ hd tl, p ++ [i] = hd :: tl := by
    cases p with
    | nil => exact ⟨i, [], rfl⟩
    | cons a b => exact ⟨a, b ++ [i], by simp⟩
  rw [heq, tokSourceOffset, ← heq, List.dropLast_concat, List.getLast?_concat]
  simp only [hp, hc]
  rcases hoff : tokSourceOffset r p with _ | a
  · simp
  · simp only [Option.some_bind]
    rw [walkPreceding_eq i parent.children a (by omega)]
    rcases hspec : specPrecedingSum parent.children i with _ | s
    · simp
    · simp [Option.elim]

/-- Witness for C2: a root with shift 5 and two children, the first with
shift 1 and length 2, the second with shift 3; the second child's offset is
`5 + (1 + 2) + 3 = 11`. -/
theorem claim_C2_witness :
    tokSourceOffset (Token.mk TokKind.plain none 5
          [Token.mk TokKind.plain (some 2) 1 [], Token.mk TokKind.plain none 3 []]) [1]
        = (tokSourceOffset (Token.mk TokKind.plain none 5
              [Token.mk TokKind.plain (some 2) 1 [], Token.mk TokKind.plain none 3 []]) []).bind
            (fun a =>
              (specPrecedingSum
                  [Token.mk TokKind.plain (some 2) 1 [], Token.mk TokKind.plain none 3 []]
                  1).map
                (fun s => a + s + (Token.mk TokKind.plain none 3 []).sourceShift)) ∧
      tokSourceOffset (Token.mk TokKind.plain none 5
            [Token.mk TokKind.plain (some 2) 1 [], Token.mk TokKind.plain none 3 []]) []
        = some 5 :=
  claim_C2 (Token.mk TokKind.plain none 5
      [Token.mk TokKind.plain (some 2) 1 [], Token.mk TokKind.plain none 3 []])
    [] 1
    (Token.mk TokKind.plain none 5
      [Token.mk TokKind.plain (some 2) 1 [], Token.mk TokKind.plain none 3 []])
    (Token.mk TokKind.plain none 3 []) rfl rfl

/-! ## The `sourceOffset` setter, `_parsePatterns`, `updateState` -/

/-- C10: Assigning `sourceOffset` succeeds exactly for a nonzero integer
between the current offset and the source length (both inclusive); in
particular assigning `0` always throws a `TypeError` — even when the
current offset is already `0` — so offset `0` is reachable only as the
initial value (`Ctx.init`) and never by assignment. -/
theorem claim_C10 :
    (∀ (c : Ctx), c.setSourceOffset 0
        = Except.error (JsErr.typeError "\"offset\" isn't an integer")) ∧
      (∀ (c : Ctx) (v : Int),
        (∃ c', c.setSourceOffset v = Except.ok c')
          ↔ (v ≠ 0 ∧ (c.sourceOffset : Int) ≤ v ∧ v ≤ (c.source.length : Int))) ∧
      (∀ s, (Ctx.init s).sourceOffset = 0) := by
  refine ⟨fun c => by rw [Ctx.setSourceOffset, if_pos rfl], fun c v => ?_, fun s => rfl⟩
  constructor
  · rintro ⟨c', hc'⟩
    rw [Ctx.setSourceOffset] at hc'
    by_cases h0 : v = 0
    · rw [if_pos h0] at hc'; exact absurd hc' (by simp)
    rw [if_neg h0] at hc'
    by_cases hlt : v < (c.sourceOffset : Int)
    · rw [if_pos hlt] at hc'; exact absurd hc' (by simp)
    rw [if_neg hlt] at hc'
    by_cases hgt : v > (c.source.length : Int)
    · rw [if_pos hgt] at hc'; exact absurd hc' (by simp)
    exact ⟨h0, by omega, by omega⟩
  · rintro ⟨h0, hge, hle⟩
    refine ⟨{ c with sourceOffset := v.toNat }, ?_⟩
    rw [Ctx.setSourceOffset, if_neg h0, if_neg (by omega), if_neg (by omega)]

/-- Witness for C10: on a fresh two-character context, assigning `0` fails
even though the current offset is `0`, assigning `2` succeeds, and the
initial offset is `0`. -/
theorem claim_C10_witness :
    (Ctx.init ['a', 'b']).setSourceOffset 0
        = Except.error (JsErr.typeError "\"offset\" isn't an integer") ∧
      ((∃ c', (Ctx.init ['a', 'b']).setSourceOffset 2 = Except.ok c')
        ↔ ((2 : Int) ≠ 0 ∧ ((Ctx.init ['a', 'b']).sourceOffset : Int) ≤ 2
            ∧ (2 : Int) ≤ ((Ctx.init ['a', 'b']).source.length : Int))) ∧
      (Ctx.init ['a', 'b']).sourceOffset = 0 :=
  ⟨claim_C10.1 (Ctx.init ['a', 'b']), claim_C10.2.1 (Ctx.init ['a', 'b']) 2,
    claim_C10.2.2 ['a', 'b']⟩

/-! ### `LatexParser._parsePatterns` (LatexParser.js lines 346-356)

`contextBackup = context.copy()` is taken once; each candidate is attempted
by `_parsePattern`, which may mutate the context arbitrarily; on failure
`contextBackup.copy(context)` copies every field of the backup back into
the live context before the next candidate runs.  The candidate step is
abstracted as a function from the context to a parse result and mutated
context. -/

def parsePatternsGo {α : Type} (step : α → Ctx → Option Token × Ctx)
    (backup : Ctx) : List α → Ctx → Option Token × Ctx
  | [], c => (none, c)
  | s :: rest, c =>
    match step s c with
    | (some t, c') => (some t, c')
    | (none, _) => parsePatternsGo step backup rest backup.copy

def parsePatterns {α : Type} (step : α → Ctx → Option Token × Ctx)
    (symbols : List α) (c : Ctx) : Option Token × Ctx :=
  parsePatternsGo step c.copy symbols c

/-- C3: The `sourceOffset` setter rejects every value smaller than the
current offset (so offsets committed through it never decrease), a failed
candidate in `_parsePatterns` hands the next candidate exactly the
pre-attempt context, and when every candidate fails the resulting context
equals the pre-attempt snapshot exactly — offset, cutting offset, state,
state stack, stop label and pending token included. -/
theorem claim_C3 :
    (∀ (c : Ctx) (v : Int), v < (c.sourceOffset : Int) →
        ∃ e, c.setSourceOffset v = Except.error e) ∧
      (∀ {α : Type} (step : α → Ctx → Option Token × Ctx) (s : α) (rest : List α)
        (c c' : Ctx), step s c = (none, c') →
        parsePatterns step (s :: rest) c = parsePatterns step rest c) ∧
      (∀ {α : Type} (step : α → Ctx → Option Token × Ctx) (symbols : List α) (c : Ctx),
        (parsePatterns step symbols c).1 = none →
        (parsePatterns step symbols c).2 = c) := by
  refine ⟨fun c v hv => ?_, fun step s rest c c' hfail => ?_, fun step symbols c => ?_⟩
  · rw [Ctx.setSourceOffset]
    by_cases h0 : v = 0
    · rw [if_pos h0]; exact ⟨_, rfl⟩
    · rw [if_neg h0, if_pos hv]; exact ⟨_, rfl⟩
  · rw [parsePatterns, parsePatterns, parsePatternsGo, hfail, Ctx.copy_eq, Ctx.copy_eq]
  · rw [parsePatterns]
    induction symbols with
    | nil => intro _; rw [parsePatternsGo]
    | cons s rest ih =>
      rw [parsePatternsGo]
      rcases hstep : step s c with ⟨t?, c'⟩
      cases t? with
      | some t => intro hnone; exact absurd hnone (by simp)
      | none => rw [Ctx.copy_eq]; exact ih

/-- Witness for C3: a backward assignment fails on a fresh context, and a
single always-failing candidate leaves the context exactly as it was. -/
theorem claim_C3_witness :
    (∃ e, (Ctx.init ['a', 'b']).setSourceOffset (-1) = Except.error e) ∧
      parsePatterns (fun (_ : Unit) c => (none, c)) [()] (Ctx.init ['a', 'b'])
        = parsePatterns (fun (_ : Unit) c => (none, c)) [] (Ctx.init ['a', 'b']) ∧
      (parsePatterns (fun (_ : Unit) c => (none, c)) [()] (Ctx.init ['a', 'b'])).2
        = Ctx.init ['a', 'b'] :=
  ⟨claim_C3.1 _ (-1) (by norm_num [Ctx.init]),
    claim_C3.2.1 (fun (_ : Unit) c => (none, c)) () [] _ _ rfl,
    claim_C3.2.2 (fun (_ : Unit) c => (none, c)) [()] _ rfl⟩

/-! ## The parser engine: `Parser._parseToken` (Parser.js lines 110-129) -/

def Token.withSourceLength : Token → Option Int → Token
  | .mk k _ s c, v => .mk k v s c

def Token.withSourceShift : Token → Int → Token
  | .mk k l _ c, v => .mk k l v c

/-- The `sourceLength` setter (SyntaxTree.js lines 154-158): throws on a
negative (or non-integer) value, otherwise stores it. -/
def setTokenSourceLength (t : Token) (v : Int) : Except JsErr Token :=
  if v < 0 then
    Except.error (JsErr.typeError "\"sourceLength\" is not a non-negative integer")
  else Except.ok (t.withSourceLength (some v))

/-- The `sourceShift` setter (SyntaxTree.js lines 176-181): no-op when the
value is unchanged, throws on a negative (or non-integer) value, otherwise
stores it. -/
def setTokenSourceShift (t : Token) (v : Int) : Except JsErr Token :=
  if v = t.sourceShift then Except.ok t
  else if v < 0 then
    Except.error (JsErr.typeError "\"sourceShift\" is not a non-negative integer")
  else Except.ok (t.withSourceShift v)

/-- `Parser._parseToken(context)`: ask the dispatch for a callback (the
dispatch itself may mutate the context), remember the current token, offset
and relative shift, mark the cutting offset, run the callback, restore the
current token, and on success mark the cutting offset again, fix the
token's `sourceLength` and `sourceShift` and attach it as a child of the
remembered current token when there is one. -/
def parseToken (dispatch : Ctx → Option (Ctx → Option Token × Ctx) × Ctx)
    (c0 : Ctx) : Except JsErr (Option Token × Ctx) :=
  match dispatch c0 with
  | (none, c) => Except.ok (none, c)
  | (some cb, c) =>
    let contextToken := c.token
    let tokenSourceOffset := c.sourceOffset
    let tokenSourceShift : Int := (c.sourceOffset : Int) - (c.sourceCuttingOffset : Int)
    match cb c.markSourceCuttingOffset with
    | (none, c₂) => Except.ok (none, { c₂ with token := contextToken })
    | (some tok, c₂) =>
      let c₄ := ({ c₂ with token := contextToken }).markSourceCuttingOffset
      match setTokenSourceLength tok ((c₂.sourceOffset : Int) - (tokenSourceOffset : Int)) with
      | .error e => Except.error e
      | .ok tok₁ =>
        match setTokenSourceShift tok₁ tokenSourceShift with
        | .error e => Except.error e
        | .ok tok₂ =>
          match contextToken with
          | some ct =>
            Except.ok (some tok₂, { c₄ with token := some (ct.insertChildSubtree tok₂) })
          | none => Except.ok (some tok₂, c₄)

theorem Token.sourceShift_withSourceLength (t : Token) (v : Option Int) :
    (t.withSourceLength v).sourceShift = t.sourceShift := by
  cases t; rfl

theorem Token.sourceLength_withSourceLength (t : Token) (v : Option Int) :
    (t.withSourceLength v).sourceLength = v := by
  cases t; rfl

theorem Token.sourceLength_withSourceShift (t : Token) (v : Int) :
    (t.withSourceShift v).sourceLength = t.sourceLength := by
  cases t; rfl

theorem Token.sourceShift_withSourceShift (t : Token) (v : Int) :
    (t.withSourceShift v).sourceShift = v := by
  cases t; rfl

/-- C4: Whenever `_parseToken` succeeds in producing a token, the token's
`sourceLength` is the context offset after the step minus the offset before
it, its `sourceShift` is the offset before the step minus the last cutting
offset, and the token is attached at the end of the child list of the
context's current token when one exists. -/
theorem claim_C4 (dispatch : Ctx → Option (Ctx → Option Token × Ctx) × Ctx)
    (cb : Ctx → Option Token × Ctx) (c0 c1 c2 : Ctx) (tok : Token)
    (hd : dispatch c0 = (some cb, c1))
    (hcb : cb c1.markSourceCuttingOffset = (some tok, c2))
    (hmono : c1.sourceOffset ≤ c2.sourceOffset)
    (hcut : c1.sourceCuttingOffset ≤ c1.sourceOffset) :
    ∃ tok' c', parseToken dispatch c0 = Except.ok (some tok', c') ∧
      tok'.sourceLength = some ((c2.sourceOffset : Int) - (c1.sourceOffset : Int)) ∧
      tok'.sourceShift = (c1.sourceOffset : Int) - (c1.sourceCuttingOffset : Int) ∧
      c'.token = c1.token.map (fun ct => ct.insertChildSubtree tok') ∧
      c'.sourceOffset = c2.sourceOffset := by
  rw [parseToken, hd]
  simp only [hcb]
  have hlen : setTokenSourceLength tok ((c2.sourceOffset : Int) - (c1.sourceOffset : Int))
      = Except.ok (tok.withSourceLength (some ((c2.sourceOffset : Int) - (c1.sourceOffset : Int)))) := by
    rw [setTokenSourceLength, if_neg (by omega)]
  set tok₁ := tok.withSourceLength (some ((c2.sourceOffset : Int) - (c1.sourceOffset : Int)))
    with htok₁
  set shift : Int := (c1.sourceOffset : Int) - (c1.sourceCuttingOffset : Int) with hshift
  have hsh : ∃ tok₂, setTokenSourceShift tok₁ shift = Except.ok tok₂ ∧
      tok₂.sourceShift = shift ∧ tok₂.sourceLength = tok₁.sourceLength := by
    rw [setTokenSourceShift]
    by_cases heq : shift = tok₁.sourceShift
    · rw [if_pos heq]; exact ⟨tok₁, rfl, heq.symm, rfl⟩
    · rw [if_neg heq, if_neg (by omega)]
      exact ⟨tok₁.withSourceShift shift, rfl, Token.sourceShift_withSourceShift _ _,
        Token.sourceLength_withSourceShift _ _⟩
  obtain ⟨tok₂, hsh₂, hshv, hshl⟩ := hsh
  simp only [hlen, hsh₂]
  have hLen : tok₂.sourceLength = some ((c2.sourceOffset : Int) - (c1.sourceOffset : Int)) := by
    rw [hshl, htok₁, Token.sourceLength_withSourceLength]
  cases hct : c1.token with
  | some ct => exact ⟨tok₂, _, rfl, hLen, hshv, rfl, rfl⟩
  | none => exact ⟨tok₂, _, rfl, hLen, hshv, rfl, rfl⟩

/-! ## `updateState` and the state stack (C9)

`LatexParser.Context#updateState` (LatexParser.js lines 548-582) batches
the non-GROUP flag changes into `newModeStates` (a JavaScript object,
modelled as an association list updated in place), flushes and pushes on
`BEGIN GROUP`, and on `END GROUP` resets the batch and calls
`restoreState()`, discarding its boolean result (`// TODO: process error`). -/

/-- `newModeStates[operand] = value`: object assignment keeps the key's
original insertion position. -/
def pendingSet (pending : List (Mode × Bool)) (m : Mode) (b : Bool) :
    List (Mode × Bool) :=
  if pending.any (fun mb => mb.1 == m) then
    pending.map (fun mb => if mb.1 == m then (m, b) else mb)
  else pending ++ [(m, b)]

def updateStateStep (acc : Ctx × List (Mode × Bool)) (op : Operation) :
    Ctx × List (Mode × Bool) :=
  match op.directive, op.operand with
  | .BEGIN, .group =>
    (({ acc.1 with state := acc.1.state.update acc.2 }).backupState, [])
  | .BEGIN, .mode m => (acc.1, pendingSet acc.2 m true)
  | .END, .group => ((acc.1.restoreState).2, [])
  | .END, .mode m => (acc.1, pendingSet acc.2 m false)

def Ctx.updateState (c : Ctx) (operations : List Operation) : Ctx :=
  let acc := operations.foldl updateStateStep (c, [])
  { acc.1 with state := acc.1.state.update acc.2 }

/-- C9 evaluated at the failing input: on a context whose state stack is
empty, `restoreState` merely returns `false` and leaves the context
unchanged, and `updateState` applied to a single `END GROUP` operation
discards that `false` (the `// TODO: process error` branch), so the whole
operation is a silent no-op — no unbalanced-group condition is signalled
anywhere. -/
theorem claim_C9 :
    (Ctx.init ['x']).restoreState = (false, Ctx.init ['x']) ∧
      (Ctx.init ['x']).updateState [⟨Directive.END, Operand.group⟩] = Ctx.init ['x'] :=
  ⟨rfl, rfl⟩

/-! ## Comments and space tokens (LatexParser.js lines 295-335) -/

/-- The space characters of `_parseSpaceToken`'s `switch`. -/
def isSpaceChar (ch : Char) : Bool :=
  ch = ' ' || ch = '\t' || ch = '\r' || ch = '\n'

theorem takeWhileLen_le {α : Type} (p : α → Bool) (l : List α) :
    (l.takeWhile p).length ≤ l.length := by
  induction l with
  | nil => simp
  | cons a l ih =>
    rw [List.takeWhile_cons]
    split
    · simpa using ih
    · simp

/-- The comment regular expression `/^%([^\n]*)(\n[ \t]*)?/` applied to the
source tail: the captured comment text (group 1) and the total match
length, which absorbs the line break and the following indentation when
present. -/
def commentMatch (s : List Char) : Option (List Char × Nat) :=
  match s with
  | [] => none
  | ch :: rest =>
    if ch = '%' then
      if (rest.drop (rest.takeWhile (fun c => c ≠ '\n')).length).head? = some '\n' then
        some (rest.takeWhile (fun c => c ≠ '\n'),
          1 + (rest.takeWhile (fun c => c ≠ '\n')).length + 1
            + (((rest.drop (rest.takeWhile (fun c => c ≠ '\n')).length).drop 1).takeWhile
                (fun c => c = ' ' || c = '\t')).length)
      else
        some (rest.takeWhile (fun c => c ≠ '\n'),
          1 + (rest.takeWhile (fun c => c ≠ '\n')).length)
    else none

/-- `LatexParser._parseCommentLine(context)` (LatexParser.js lines 295-303):
`null` when there is no comment at the offset, otherwise store the comment
string and move the offset past the match. -/
def parseCommentLine (c : Ctx) : Option Ctx :=
  match commentMatch (c.source.drop c.sourceOffset) with
  | none => none
  | some (comment, len) =>
    some { c with comments := c.comments ++ [comment],
                  sourceOffset := c.sourceOffset + len }

theorem commentMatch_len {s : List Char} {cm : List Char} {len : Nat}
    (h : commentMatch s = some (cm, len)) : 1 ≤ len ∧ len ≤ s.length := by
  match s with
  | [] => simp [commentMatch] at h
  | ch :: rest =>
    rw [commentMatch] at h
    by_cases hch : ch = '%'
    case neg => rw [if_neg hch] at h; exact absurd h (by simp)
    rw [if_pos hch] at h
    have htw : (rest.takeWhile (fun c => c ≠ '\n')).length ≤ rest.length :=
      takeWhileLen_le _ _
    by_cases hnl :
        (rest.drop (rest.takeWhile (fun c => c ≠ '\n')).length).head? = some '\n'
    · rw [if_pos hnl] at h
      simp only [Option.some.injEq, Prod.mk.injEq] at h
      have hne : (rest.drop (rest.takeWhile (fun c => c ≠ '\n')).length).length ≠ 0 := by
        intro h0
        rw [List.length_eq_zero.mp h0] at hnl
        exact absurd hnl (by simp)
      have htw₃ :
          (((rest.drop (rest.takeWhile (fun c => c ≠ '\n')).length).drop 1).takeWhile
              (fun c => c = ' ' || c = '\t')).length
            ≤ ((rest.drop (rest.takeWhile (fun c => c ≠ '\n')).length).drop 1).length :=
        takeWhileLen_le _ _
      rw [List.length_drop, List.length_drop] at *
      simp only [List.length_cons]
      omega
    · rw [if_neg hnl] at h
      simp only [Option.some.injEq, Prod.mk.injEq] at h
      simp only [List.length_cons]
      omega

theorem parseCommentLine_spec {c c' : Ctx} (h : parseCommentLine c = some c') :
    c'.source = c.source ∧ c.sourceOffset < c'.sourceOffset ∧
      c'.sourceOffset ≤ c.source.length + c.sourceOffset := by
  rw [parseCommentLine] at h
  rcases hcm : commentMatch (c.source.drop c.sourceOffset) with _ | ⟨cm, len⟩
  · rw [hcm] at h; exact absurd h (by simp)
  · rw [hcm] at h
    simp only [Option.some.injEq] at h
    subst h
    obtain ⟨h1, h2⟩ := commentMatch_len hcm
    rw [List.length_drop] at h2
    refine ⟨rfl, by simp; omega, by simp; omega⟩

/-- The loop of `LatexParser._parseSpaceToken` (LatexParser.js lines
316-332) with its two mutable locals `isSpace` and `nLineBreaks`: while not
at the source end, first skip a comment line if one starts here, then
consume a space/tab/carriage-return (setting `isSpace`), or a line break
(also counting it), or stop. -/
def spaceAux (c : Ctx) (isSpace : Bool) (nLineBreaks : Nat) : Bool × Nat × Ctx :=
  if h : c.sourceOffset < c.source.length then
    match hcm : parseCommentLine c with
    | some c' => spaceAux c' isSpace nLineBreaks
    | none =>
      match c.source.get? c.sourceOffset with
      | none => (isSpace, nLineBreaks, c)
      | some ch =>
        if ch = ' ' ∨ ch = '\t' ∨ ch = '\r' then
          spaceAux { c with sourceOffset := c.sourceOffset + 1 } true nLineBreaks
        else if ch = '\n' then
          spaceAux { c with sourceOffset := c.sourceOffset + 1 } true (nLineBreaks + 1)
        else (isSpace, nLineBreaks, c)
  else (isSpace, nLineBreaks, c)
  termination_by c.source.length - c.sourceOffset
  decreasing_by
  · obtain ⟨hsrc, hlt, hle⟩ := parseCommentLine_spec hcm
    rw [hsrc]
    omega
  · omega
  · omega

/-- `LatexParser._parseSpaceToken(context)`: run the loop from
`isSpace = false`, `nLineBreaks = 0`; create a space token exactly when
`isSpace` ended up `true`. -/
def parseSpaceToken (c : Ctx) : Option Token × Ctx :=
  (if (spaceAux c false 0).1 then some (mkSpaceToken (spaceAux c false 0).2.1) else none,
    (spaceAux c false 0).2.2)

theorem spaceAux_comment {c c' : Ctx} {b : Bool} {n : Nat}
    (h : c.sourceOffset < c.source.length) (hcm : parseCommentLine c = some c') :
    spaceAux c b n = spaceAux c' b n := by
  conv_lhs => rw [spaceAux]
  rw [dif_pos h]
  split
  · next c'' heq => rw [hcm] at heq; injection heq with heq'; rw [heq']
  · next heq => rw [hcm] at heq; exact absurd heq (by simp)

theorem spaceAux_space {c : Ctx} {b : Bool} {n : Nat} {ch : Char}
    (h : c.sourceOffset < c.source.length) (hcm : parseCommentLine c = none)
    (hget : c.source.get? c.sourceOffset = some ch)
    (hsp : ch = ' ' ∨ ch = '\t' ∨ ch = '\r') :
    spaceAux c b n = spaceAux { c with sourceOffset := c.sourceOffset + 1 } true n := by
  conv_lhs => rw [spaceAux]
  rw [dif_pos h]
  split
  · next c'' heq => rw [hcm] at heq; exact absurd heq (by simp)
  · next heq =>
    rw [hget]
    simp only [Option.some.injEq]
    rw [if_pos hsp]

theorem spaceAux_newline {c : Ctx} {b : Bool} {n : Nat}
    (h : c.sourceOffset < c.source.length) (hcm : parseCommentLine c = none)
    (hget : c.source.get? c.sourceOffset = some '\n') :
    spaceAux c b n
      = spaceAux { c with sourceOffset := c.sourceOffset + 1 } true (n + 1) := by
  conv_lhs => rw [spaceAux]
  rw [dif_pos h]
  split
  · next c'' heq => rw [hcm] at heq; exact absurd heq (by simp)
  · next heq =>
    rw [hget]
    simp only [Option.some.injEq]
    rw [if_neg (by simp)]
    simp

theorem spaceAux_stop {c : Ctx} {b : Bool} {n : Nat} {ch : Char}
    (h : c.sourceOffset < c.source.length) (hcm : parseCommentLine c = none)
    (hget : c.source.get? c.sourceOffset = some ch)
    (hnsp : ¬ (ch = ' ' ∨ ch = '\t' ∨ ch = '\r')) (hnnl : ch ≠ '\n') :
    spaceAux c b n = (b, n, c) := by
  conv_lhs => rw [spaceAux]
  rw [dif_pos h]
  split
  · next c'' heq => rw [hcm] at heq; exact absurd heq (by simp)
  · next heq =>
    rw [hget]
    simp only [Option.some.injEq]
    rw [if_neg hnsp, if_neg hnnl]

theorem spaceAux_getnone {c : Ctx} {b : Bool} {n : Nat}
    (h : c.sourceOffset < c.source.length) (hcm : parseCommentLine c = none)
    (hget : c.source.get? c.sourceOffset = none) :
    spaceAux c b n = (b, n, c) := by
  conv_lhs => rw [spaceAux]
  rw [dif_pos h]
  split
  · next c'' heq => rw [hcm] at heq; exact absurd heq (by simp)
  · next heq => rw [hget]

theorem spaceAux_end {c : Ctx} {b : Bool} {n : Nat}
    (h : ¬ c.sourceOffset < c.source.length) :
    spaceAux c b n = (b, n, c) := by
  rw [spaceAux, dif_neg h]

theorem spaceAux_src_mono (c : Ctx) (b : Bool) (n : Nat) :
    (spaceAux c b n).2.2.source = c.source ∧
      c.sourceOffset ≤ (spaceAux c b n).2.2.sourceOffset := by
  induction c, b, n using spaceAux.induct with
  | case1 c b n h c' hcm ih =>
    rw [spaceAux_comment h hcm]
    obtain ⟨hsrc, hlt, -⟩ := parseCommentLine_spec hcm
    obtain ⟨ih1, ih2⟩ := ih
    exact ⟨ih1.trans hsrc, by omega⟩
  | case2 c b n h hcm hget =>
    rw [spaceAux_getnone h hcm hget]
    exact ⟨rfl, Nat.le_refl _⟩
  | case3 c b n h hcm ch hget hsp ih =>
    rw [spaceAux_space h hcm hget hsp]
    obtain ⟨ih1, ih2⟩ := ih
    exact ⟨ih1, by simp at ih2; omega⟩
  | case4 c b n h hcm hget hnsp ih =>
    rw [spaceAux_newline h hcm hget]
    obtain ⟨ih1, ih2⟩ := ih
    exact ⟨ih1, by simp at ih2; omega⟩
  | case5 c b n h hcm ch hget hnsp hnnl =>
    rw [spaceAux_stop h hcm hget hnsp hnnl]
    exact ⟨rfl, Nat.le_refl _⟩
  | case6 c b n h =>
    rw [spaceAux_end h]
    exact ⟨rfl, Nat.le_refl _⟩

theorem spaceAux_true (c : Ctx) (b : Bool) (n : Nat)
    (htrue : (spaceAux c b n).1 = true) :
    b = true ∨ ∃ i ch, c.sourceOffset ≤ i ∧ i < (spaceAux c b n).2.2.sourceOffset ∧
      c.source.get? i = some ch ∧ isSpaceChar ch = true := by
  induction c, b, n using spaceAux.induct with
  | case1 c b n h c' hcm ih =>
    rw [spaceAux_comment h hcm] at htrue ⊢
    obtain ⟨hsrc, hlt, -⟩ := parseCommentLine_spec hcm
    rcases ih htrue with hb | ⟨i, ch, h1, h2, h3, h4⟩
    · exact Or.inl hb
    · exact Or.inr ⟨i, ch, by omega, h2, by rw [← hsrc]; exact h3, h4⟩
  | case2 c b n h hcm hget =>
    rw [spaceAux_getnone h hcm hget] at htrue ⊢
    exact Or.inl htrue
  | case3 c b n h hcm ch hget hsp ih =>
    rw [spaceAux_space h hcm hget hsp] at htrue ⊢
    refine Or.inr ⟨c.sourceOffset, ch, Nat.le_refl _, ?_, hget, ?_⟩
    · have := (spaceAux_src_mono { c with sourceOffset := c.sourceOffset + 1 } true n).2
      simp at this
      omega
    · rcases hsp with h1 | h1 | h1 <;> simp [isSpaceChar, h1]
  | case4 c b n h hcm hget hnsp ih =>
    rw [spaceAux_newline h hcm hget] at htrue ⊢
    refine Or.inr ⟨c.sourceOffset, '\n', Nat.le_refl _, ?_, hget, by simp [isSpaceChar]⟩
    have := (spaceAux_src_mono { c with sourceOffset := c.sourceOffset + 1 } true (n + 1)).2
    simp at this
    omega
  | case5 c b n h hcm ch hget hnsp hnnl =>
    rw [spaceAux_stop h hcm hget hnsp hnnl] at htrue ⊢
    exact Or.inl htrue
  | case6 c b n h =>
    rw [spaceAux_end h] at htrue ⊢
    exact Or.inl htrue

theorem spaceAux_exit (c : Ctx) (b : Bool) (n : Nat) :
    ∀ (b' : Bool) (n' : Nat),
      spaceAux (spaceAux c b n).2.2 b' n' = (b', n', (spaceAux c b n).2.2) := by
  induction c, b, n using spaceAux.induct with
  | case1 c b n h c' hcm ih =>
    rw [spaceAux_comment h hcm]
    exact ih
  | case2 c b n h hcm hget =>
    rw [spaceAux_getnone h hcm hget]
    intro b' n'
    exact spaceAux_getnone h hcm hget
  | case3 c b n h hcm ch hget hsp ih =>
    rw [spaceAux_space h hcm hget hsp]
    exact ih
  | case4 c b n h hcm hget hnsp ih =>
    rw [spaceAux_newline h hcm hget]
    exact ih
  | case5 c b n h hcm ch hget hnsp hnnl =>
    rw [spaceAux_stop h hcm hget hnsp hnnl]
    intro b' n'
    exact spaceAux_stop h hcm hget hnsp hnnl
  | case6 c b n h =>
    rw [spaceAux_end h]
    intro b' n'
    exact spaceAux_end h

/-- C7: Parsing a maximal run of space characters (comments skipped
transparently) yields no token when no space character was consumed; a
produced token is a space token whose lexeme is `SPACE` exactly when at
most one line break was counted and `PARAGRAPH_SEPARATOR` exactly when two
or more were; immediately re-running the space parser on the resulting
context yields no second token (so two consecutive line breaks can never
give two tokens); and on the source `"\n\n"` a single paragraph-separator
token covering both characters is produced. -/
theorem claim_C7 :
    (∀ (c : Ctx) (tok : Token), (parseSpaceToken c).1 = some tok →
        ∃ i ch, c.sourceOffset ≤ i ∧ i < (parseSpaceToken c).2.sourceOffset ∧
          c.source.get? i = some ch ∧ isSpaceChar ch = true) ∧
      (∀ (c : Ctx) (tok : Token), (parseSpaceToken c).1 = some tok →
        ∃ n, tok = mkSpaceToken n ∧ (spaceTokenLexeme n = Lexeme.SPACE ↔ n ≤ 1) ∧
          (spaceTokenLexeme n = Lexeme.PARAGRAPH_SEPARATOR ↔ 2 ≤ n)) ∧
      (∀ c : Ctx, parseSpaceToken (parseSpaceToken c).2
        = (none, (parseSpaceToken c).2)) ∧
      ((parseSpaceToken (Ctx.init ['\n', '\n'])).1 = some (mkSpaceToken 2) ∧
        (parseSpaceToken (Ctx.init ['\n', '\n'])).2.sourceOffset = 2 ∧
        spaceTokenLexeme 2 = Lexeme.PARAGRAPH_SEPARATOR) := by
  have hlex : ∀ n, (spaceTokenLexeme n = Lexeme.SPACE ↔ n ≤ 1) ∧
      (spaceTokenLexeme n = Lexeme.PARAGRAPH_SEPARATOR ↔ 2 ≤ n) := by
    intro n
    by_cases hn : n ≤ 1 <;> simp [spaceTokenLexeme, hn] <;> omega
  have heval : spaceAux (Ctx.init ['\n', '\n']) false 0
      = (true, 2, { Ctx.init ['\n', '\n'] with sourceOffset := 2 }) := by
    rw [spaceAux_newline (by decide) (by rfl) (by rfl),
      spaceAux_newline (by decide) (by rfl) (by rfl),
      spaceAux_end (by decide)]
    rfl
  refine ⟨fun c tok h => ?_, fun c tok h => ?_, fun c => ?_, ?_⟩
  · rw [parseSpaceToken] at h ⊢
    by_cases hb : (spaceAux c false 0).1
    · rcases spaceAux_true c false 0 hb with hfalse | ⟨i, ch, h1, h2, h3, h4⟩
      · exact absurd hfalse (by simp)
      · exact ⟨i, ch, h1, h2, h3, h4⟩
    · rw [if_neg hb] at h; exact absurd h (by simp)
  · rw [parseSpaceToken] at h
    by_cases hb : (spaceAux c false 0).1
    · rw [if_pos hb] at h
      simp only [Option.some.injEq] at h
      exact ⟨(spaceAux c false 0).2.1, h.symm, hlex _⟩
    · rw [if_neg hb] at h; exact absurd h (by simp)
  · rw [parseSpaceToken, parseSpaceToken, spaceAux_exit c false 0 false 0]
    simp
  · refine ⟨?_, ?_, (hlex 2).2.mpr (by omega)⟩
    · rw [parseSpaceToken, heval]
      rfl
    · rw [parseSpaceToken, heval]

/-- Witness for C7: instantiate the universally quantified conjuncts on the
concrete run over `"\n\n"`. -/
theorem claim_C7_witness :
    (∃ i ch, (Ctx.init ['\n', '\n']).sourceOffset ≤ i ∧
        i < (parseSpaceToken (Ctx.init ['\n', '\n'])).2.sourceOffset ∧
        (Ctx.init ['\n', '\n']).source.get? i = some ch ∧ isSpaceChar ch = true) ∧
      parseSpaceToken (parseSpaceToken (Ctx.init ['\n', '\n'])).2
        = (none, (parseSpaceToken (Ctx.init ['\n', '\n'])).2) :=
  ⟨claim_C7.1 (Ctx.init ['\n', '\n']) (mkSpaceToken 2) claim_C7.2.2.2.1,
    claim_C7.2.2.1 (Ctx.init ['\n', '\n'])⟩

/-! ## `_parseSymbolToken` and the parse loop (C5) -/

theorem commentMatch_none {s : List Char}
    (h : ∀ ch, s.head? = some ch → ch ≠ '%') : commentMatch s = none := by
  cases s with
  | nil => rfl
  | cons a rest =>
    rw [commentMatch, if_neg (h a rfl)]

/-- `LatexParser._parseSymbolToken(context)` (LatexParser.js lines
105-118), the registered-pattern stage abstracted as `patterns` (it is
`_parsePatterns` with the symbol lookup for the current character): read
the current source character, try the patterns, then a space token, and
otherwise report the unknown symbol, advance the offset by one (through
the setter) and synthesize an unrecognized `SymbolToken`. -/
def parseSymbolToken (patterns : Ctx → Option Token × Ctx) (c : Ctx) :
    Except JsErr (Option Token × Ctx) :=
  match patterns c with
  | (some t, c₁) => Except.ok (some t, c₁)
  | (none, c₁) =>
    match parseSpaceToken c₁ with
    | (some sp, c₂) => Except.ok (some sp, c₂)
    | (none, c₂) =>
      match c₂.setSourceOffset ((c₂.sourceOffset : Int) + 1) with
      | .error e => Except.error e
      | .ok c₃ => Except.ok (some (mkFallbackSymbolToken c.sourceCharacter), c₃)

/-- The main loop of `Parser.parse` (Parser.js lines 52-57) with an
explicit iteration budget: `none` means the budget was exhausted before the
loop stopped (so `isSome` expresses termination within the budget). -/
def parseLoop (step : Ctx → Option Token × Ctx) : Nat → Ctx → Option (List Token × Ctx)
  | 0, c => if c.isAtSourceEnd then some ([], c) else none
  | fuel + 1, c =>
    if c.isAtSourceEnd then some ([], c)
    else
      match step c with
      | (none, c') => some ([], c')
      | (some t, c') => (parseLoop step fuel c').map (fun r => (t :: r.1, r.2))

/-- C5: When no registered candidate matches at the current character (the
patterns stage fails and restores the context, and the character is neither
a space character nor a comment start), `_parseSymbolToken` synthesizes a
fallback unrecognized symbol token and advances the offset by exactly one;
and the parse loop driven by any step whose produced tokens strictly
advance the offset terminates within `source.length - sourceOffset`
iterations on any finite input. -/
theorem claim_C5 :
    (∀ (patterns : Ctx → Option Token × Ctx) (c : Ctx) (ch : Char),
        c.sourceOffset < c.source.length →
        patterns c = (none, c) →
        c.source.get? c.sourceOffset = some ch →
        isSpaceChar ch = false →
        ch ≠ '%' →
        parseSymbolToken patterns c
          = Except.ok (some (mkFallbackSymbolToken (some ch)),
              { c with sourceOffset := c.sourceOffset + 1 })) ∧
      (∀ (step : Ctx → Option Token × Ctx),
        (∀ c', (step c').2.source = c'.source ∧
          ((step c').1.isSome → c'.sourceOffset < (step c').2.sourceOffset)) →
        ∀ (fuel : Nat) (c : Ctx), c.source.length - c.sourceOffset ≤ fuel →
          (parseLoop step fuel c).isSome = true) := by
  constructor
  · intro patterns c ch h1 hpat hch hnsp hpc
    have hcm : parseCommentLine c = none := by
      rw [parseCommentLine, commentMatch_none]
      intro ch' hhd
      rw [List.head?_drop] at hhd
      rw [List.get?_eq_getElem?] at hch
      rw [hch] at hhd
      injection hhd with hhd'
      rw [← hhd']
      exact hpc
    have hnsp' : ¬ (ch = ' ' ∨ ch = '\t' ∨ ch = '\r') := by
      simp [isSpaceChar] at hnsp
      tauto
    have hnnl : ch ≠ '\n' := by
      simp [isSpaceChar] at hnsp
      tauto
    have hsp : parseSpaceToken c = (none, c) := by
      rw [parseSpaceToken, spaceAux_stop h1 hcm hch hnsp' hnnl]
      rfl
    have hset : c.setSourceOffset ((c.sourceOffset : Int) + 1)
        = Except.ok { c with sourceOffset := c.sourceOffset + 1 } := by
      rw [Ctx.setSourceOffset, if_neg (by omega), if_neg (by omega), if_neg (by omega)]
      have : ((c.sourceOffset : Int) + 1).toNat = c.sourceOffset + 1 := by omega
      rw [this]
    rw [parseSymbolToken]
    simp only [hpat, hsp, hset, Ctx.sourceCharacter, hch]
  · intro step hstep fuel
    induction fuel with
    | zero =>
      intro c hle
      rw [parseLoop, if_pos (by simp [Ctx.isAtSourceEnd]; omega)]
      rfl
    | succ fuel ih =>
      intro c hle
      by_cases hend : c.isAtSourceEnd
      · rw [parseLoop, if_pos hend]; rfl
      · rw [parseLoop, if_neg hend]
        have hlt : c.sourceOffset < c.source.length := by
          simp [Ctx.isAtSourceEnd] at hend
          omega
        rcases hstepc : step c with ⟨t?, c'⟩
        obtain ⟨hsrc, hadv⟩ := hstep c
        rw [hstepc] at hsrc hadv
        cases t? with
        | none => rfl
        | some t =>
          rw [Option.isSome_map']
          apply ih c'
          have : c.sourceOffset < c'.sourceOffset := hadv (by simp)
          rw [hsrc]
          omega

/-- Witness for C5: on the one-character source `"x"` with no registered
candidates, the fallback advances the offset from 0 to 1, and an
always-failing step's loop terminates on `"x"` with one unit of budget. -/
theorem claim_C5_witness :
    parseSymbolToken (fun c => (none, c)) (Ctx.init ['x'])
        = Except.ok (some (mkFallbackSymbolToken (some 'x')),
            { Ctx.init ['x'] with sourceOffset := (Ctx.init ['x']).sourceOffset + 1 }) ∧
      (parseLoop (fun c => (none, c)) 1 (Ctx.init ['x'])).isSome = true :=
  ⟨claim_C5.1 (fun c => (none, c)) (Ctx.init ['x']) 'x' (by decide) rfl rfl (by decide)
      (by decide),
    claim_C5.2 (fun c => (none, c))
      (fun c' => ⟨rfl, by simp⟩) 1 (Ctx.init ['x']) (by decide)⟩

/-- Witness for C4: a dispatch whose callback produces a fresh token and
advances the offset from 0 to 1 on the one-character source `"a"`. -/
theorem claim_C4_witness :
    ∃ tok' c',
      parseToken
          (fun c => (some (fun d => (some (Token.mk TokKind.plain none 0 []),
              { d with sourceOffset := 1 })), c))
          (Ctx.init ['a'])
        = Except.ok (some tok', c') ∧
      tok'.sourceLength = some 1 ∧
      tok'.sourceShift = 0 ∧
      c'.token = (Ctx.init ['a']).token.map (fun ct => ct.insertChildSubtree tok') ∧
      c'.sourceOffset = 1 := by
  obtain ⟨tok', c', h1, h2, h3, h4, h5⟩ :=
    claim_C4
      (fun c => (some (fun d => (some (Token.mk TokKind.plain none 0 []),
          { d with sourceOffset := 1 })), c))
      (fun d => (some (Token.mk TokKind.plain none 0 []), { d with sourceOffset := 1 }))
      (Ctx.init ['a']) (Ctx.init ['a'])
      { (Ctx.init ['a']).markSourceCuttingOffset with sourceOffset := 1 }
      (Token.mk TokKind.plain none 0 [])
      rfl rfl (by decide) (by decide)
  exact ⟨tok', c', h1, by simpa using h2, by simpa using h3, h4, by simpa using h5⟩
